import Mathlib

/-! # go-varpad: self-describing padding blocks

A shallow embedding of `varpad.go` (package `varpad`) together with the part of the
external library `github.com/kstenerud/go-vlq` that `varpad.go` calls.

Conventions of the embedding.

* A byte is a `Nat`; a Go `[]byte` is a `List Nat`.  A call that mutates its slice
  argument returns the slice contents after the call.
* Go's `int` is the 64-bit two's-complement integer: an `Int` that is wrapped with
  `wrapInt` wherever the source computes one.  `Varpad` (`vlq.Rvlq`, a `uint64`) is a
  `Nat` reduced modulo `2 ^ 64` wherever the source computes one.
* A run-time panic (slice bounds or index out of range) is the result `none`.
-/

namespace vlq

/-- Modelled from the spec: the base-128 expansion of a value (spec section 3,
VLQDigitSequence), most-significant digit first, at least one digit.  The library
`go-vlq` is not part of the sources.  The first argument bounds the recursion; it is
never exhausted when it is at least the value. -/
def digitsAux : Nat → Nat → List Nat
  | 0, value => [value % 128]
  | fuel + 1, value =>
    if value < 128 then [value] else digitsAux fuel (value / 128) ++ [value % 128]

/-- Modelled from the spec: VLQDigitSequence of a value (spec section 3). -/
def VLQDigitSequence (value : Nat) : List Nat :=
  digitsAux value value

/-- Modelled from the spec: the digit count `k = digitCount(value) ≥ 1` (spec section 3). -/
def digitCount (value : Nat) : Nat :=
  (VLQDigitSequence value).length

/-- Modelled from the spec: ForwardEncoding `F` (spec sections 3 and 4.1): every digit
group but the last is written as `0x80 | g`, the last group is written raw. -/
def EncodeForward (value : Nat) : List Nat :=
  let ds := VLQDigitSequence value
  (ds.take (ds.length - 1)).map (fun g => 0x80 ||| g) ++ ds.drop (ds.length - 1)

/-- Modelled from the spec: ReversedEncoding `R = reverse(F)` (spec sections 3 and 4.1). -/
def EncodeReversed (value : Nat) : List Nat :=
  (EncodeForward value).reverse

/-- Modelled from the spec: `Rvlq.EncodeTo` of go-vlq, which writes `F` into bytes
`[0, k)` of the buffer and reports `k` (spec section 4.3, step 2).  The result is the
number of bytes written and the buffer afterwards; `none` is the library's error for a
buffer shorter than `k`, in which case nothing is written. -/
def Rvlq.EncodeTo (this : Nat) (buffer : List Nat) : Option (Nat × List Nat) :=
  let F := EncodeForward this
  if buffer.length < F.length then none
  else some (F.length, F ++ buffer.drop F.length)

/-- Modelled from the spec: `Rvlq.EncodeReversedTo` of go-vlq, which writes `R`
tail-anchored into the last `k` bytes of the buffer (spec section 4.3, step 5). -/
def Rvlq.EncodeReversedTo (this : Nat) (buffer : List Nat) : Option (Nat × List Nat) :=
  let R := EncodeReversed this
  if buffer.length < R.length then none
  else some (R.length, buffer.take (buffer.length - R.length) ++ R)

/-- Modelled from the spec: `Rvlq.DecodeFrom` of go-vlq (spec section 4.1,
DecodeForward): reads bytes from the start, accumulating 7-bit digits onto the state
`this` until a byte with the high bit clear is read (complete) or the buffer runs out
(incomplete).  The result is the new state, the bytes consumed and `isComplete`.  The
state is a `uint64`. -/
def Rvlq.DecodeFrom (this : Nat) : List Nat → Nat × Nat × Bool
  | [] => (this, 0, false)
  | b :: rest =>
    let acc := (this * 128 + b % 128) % 2 ^ 64
    if b &&& 0x80 = 0 then (acc, 1, true)
    else
      let r := Rvlq.DecodeFrom acc rest
      (r.1, r.2.1 + 1, r.2.2)

/-- Modelled from the spec: `Rvlq.DecodeReversedFrom` of go-vlq (spec section 4.1,
DecodeReversed): the same scan as `DecodeFrom`, from the last byte backward; running
out of buffer before the terminating byte is an error.  The result is the new state,
the bytes consumed and whether an error is returned. -/
def Rvlq.DecodeReversedFrom (this : Nat) (buffer : List Nat) : Nat × Nat × Bool :=
  let r := Rvlq.DecodeFrom this buffer.reverse
  (r.1, r.2.1, !r.2.2)

/-- The plain (unbounded) value of a most-significant-first digit list read onto `acc`. -/
def digitsValue (acc : Nat) (ds : List Nat) : Nat :=
  ds.foldl (fun a d => a * 128 + d) acc

/-- The `uint64` accumulator of the decoder after reading the digits `ds` onto `acc`. -/
def accumulate (acc : Nat) (ds : List Nat) : Nat :=
  ds.foldl (fun a d => (a * 128 + d) % 2 ^ 64) acc

end vlq

namespace varpad

/-- Go's `int`: reduction of an integer to the 64-bit two's-complement range. -/
def wrapInt (x : Int) : Int :=
  (x + 2 ^ 63) % 2 ^ 64 - 2 ^ 63

/-- The conversion `int(this)` of a `Varpad` (`uint64`). -/
def toInt (v : Nat) : Int :=
  wrapInt (v : Int)

/-- The conversion `Varpad(x)` of an `int`. -/
def toVarpad (x : Int) : Nat :=
  (x % 2 ^ 64).toNat

/-- The function `Padding` of `varpad.go`; `%` is Go's truncated remainder. -/
def Padding (length : Int) (paddingModulus : Int) : Nat :=
  if paddingModulus < 2 then 0
  else
    let modulus := paddingModulus
    let remainder := Int.tmod length modulus
    toVarpad (wrapInt (modulus - remainder))

/-- What a call of `EncodeTo` leaves behind: the contents of the caller's buffer and
whether the returned error is non-nil. -/
structure EncodeOutcome where
  buffer : List Nat
  err : Bool
deriving DecidableEq, Repr

/-- The method `Varpad.EncodeTo` of `varpad.go`.  `none` is a run-time panic.  The
working region `buffer[:int(this)]` shares its bytes with the caller's buffer, so the
caller's buffer afterwards is the region followed by the untouched surplus.

The panics are those of the three slice expressions: `buffer[:int(this)]` with a negative
bound, the index `bytesWritten-1` outside the region, and
`buffer[bytesWritten : len(buffer)-bytesWritten+1]` with its low bound above its high
bound.  Where the last one is reached `1 ≤ bytesWritten ≤ len(buffer)`, so the high bound
is computed without truncation and never exceeds the length of the region. -/
def Varpad.EncodeTo (this : Nat) (buffer : List Nat) : Option EncodeOutcome :=
  if this < 1 then some ⟨buffer, false⟩
  else if (buffer.length : Int) < toInt this then some ⟨buffer, true⟩
  else if toInt this < 0 then none
  else
    let n := (toInt this).toNat
    let surplus := buffer.drop n
    let region := buffer.take n
    match vlq.Rvlq.EncodeTo this region with
    | none => some ⟨region ++ surplus, true⟩
    | some (bytesWritten, region1) =>
      match vlq.Rvlq.EncodeReversedTo this region1 with
      | none => some ⟨region1 ++ surplus, true⟩
      | some (_, region2) =>
        if bytesWritten < 1 then none
        else
          match region2[bytesWritten - 1]? with
          | none => none
          | some middle =>
            let high := region2.length - bytesWritten + 1
            if high < bytesWritten then none
            else
              some ⟨region2.take bytesWritten ++ List.replicate (high - bytesWritten) middle
                ++ region2.drop high ++ surplus, false⟩

/-- The function `FillWithPadding` of `varpad.go`: the error of `EncodeTo` is dropped. -/
def FillWithPadding (buffer : List Nat) : Option (List Nat) :=
  (Varpad.EncodeTo (buffer.length % 2 ^ 64) buffer).map (fun o => o.buffer)

/-- The method `(*Varpad).DecodeFromBeginning` of `varpad.go`: the new state, the bytes
decoded and `isComplete`. -/
def Varpad.DecodeFromBeginning (this : Nat) (buffer : List Nat) : Nat × Nat × Bool :=
  vlq.Rvlq.DecodeFrom this buffer

/-- The function `DecodeFromBeginning` of `varpad.go`: `value` starts as zero. -/
def DecodeFromBeginning (buffer : List Nat) : Nat × Nat × Bool :=
  Varpad.DecodeFromBeginning 0 buffer

/-- The method `(*Varpad).DecodeFromEnd` of `varpad.go`: the new state, the bytes
decoded and whether the error is non-nil. -/
def Varpad.DecodeFromEnd (this : Nat) (buffer : List Nat) : Nat × Nat × Bool :=
  vlq.Rvlq.DecodeReversedFrom this buffer

/-- The function `DecodeFromEnd` of `varpad.go`: `value` starts as zero. -/
def DecodeFromEnd (buffer : List Nat) : Nat × Nat × Bool :=
  Varpad.DecodeFromEnd 0 buffer

/-- Overwrites the bytes of `buffer` from index `pos` on with `bytes`. -/
def writeAt (buffer : List Nat) (pos : Nat) (bytes : List Nat) : List Nat :=
  buffer.take pos ++ bytes ++ buffer.drop (pos + bytes.length)

/-- The block built in the order of the spec's words (spec section 4.3, steps 1 to 5):
write `F` into `[0, k)`, fill `[k, value-k]` inclusive with the filler `F[k-1]` (a range
that may be empty), then write `R` into `[value-k, value)`.  It is compared with
`Varpad.EncodeTo`, which writes `R` before it reads the filler and fills. -/
def specEncodeBlock (value : Nat) (destination : List Nat) : List Nat :=
  let F := vlq.EncodeForward value
  let k := F.length
  let afterF := writeAt destination 0 F
  let filler := F.getD (k - 1) 0
  let afterFill := writeAt afterF k (List.replicate (value - k + 1 - k) filler)
  writeAt afterFill (value - k) (vlq.EncodeReversed value)

end varpad

/-! ## The base-128 codec -/

namespace vlq

theorem flag_high_bit : ∀ d < 128, (0x80 ||| d) &&& 0x80 ≠ 0 := by decide

theorem flag_low_bits : ∀ d < 128, (0x80 ||| d) % 128 = d := by decide

theorem raw_high_bit : ∀ d < 128, d &&& 0x80 = 0 := by decide

theorem digitsAux_lt (fuel : Nat) : ∀ value, ∀ d ∈ digitsAux fuel value, d < 128 := by
  induction fuel with
  | zero =>
    intro value d hd
    simp only [digitsAux, List.mem_singleton] at hd
    omega
  | succ fuel ih =>
    intro value d hd
    unfold digitsAux at hd
    split at hd
    · simp only [List.mem_singleton] at hd
      omega
    · rcases List.mem_append.mp hd with h | h
      · exact ih _ d h
      · simp only [List.mem_singleton] at h
        omega

theorem digitsAux_split (fuel value : Nat) :
    ∃ init, digitsAux fuel value = init ++ [value % 128] := by
  cases fuel with
  | zero => exact ⟨[], rfl⟩
  | succ fuel =>
    unfold digitsAux
    split
    · refine ⟨[], ?_⟩
      simp only [List.nil_append, List.cons.injEq, and_true]
      omega
    · exact ⟨_, rfl⟩

theorem digitsAux_length_bound (fuel : Nat) :
    ∀ value, 1 ≤ value → 2 * (digitsAux fuel value).length ≤ value + 1 := by
  induction fuel with
  | zero =>
    intro value h
    simp only [digitsAux, List.length_singleton]
    omega
  | succ fuel ih =>
    intro value h
    unfold digitsAux
    split
    · simp only [List.length_singleton]
      omega
    · have := ih (value / 128) (by omega)
      simp only [List.length_append, List.length_singleton]
      omega

theorem digitsValue_append (acc : Nat) (xs ys : List Nat) :
    digitsValue acc (xs ++ ys) = digitsValue (digitsValue acc xs) ys := by
  simp [digitsValue, List.foldl_append]

theorem accumulate_append (acc : Nat) (xs ys : List Nat) :
    accumulate acc (xs ++ ys) = accumulate (accumulate acc xs) ys := by
  simp [accumulate, List.foldl_append]

theorem digitsValue_digitsAux (fuel : Nat) :
    ∀ value, value ≤ fuel → digitsValue 0 (digitsAux fuel value) = value := by
  induction fuel with
  | zero =>
    intro value h
    have : value = 0 := by omega
    subst this
    rfl
  | succ fuel ih =>
    intro value h
    unfold digitsAux
    split
    · simp [digitsValue]
    · rw [digitsValue_append, ih (value / 128) (by omega)]
      simp only [digitsValue, List.foldl_cons, List.foldl_nil]
      omega

theorem accumulate_eq_mod (ds : List Nat) :
    ∀ acc, acc < 2 ^ 64 → accumulate acc ds = digitsValue acc ds % 2 ^ 64 := by
  induction ds using List.reverseRecOn with
  | nil =>
    intro acc h
    simp only [accumulate, digitsValue, List.foldl_nil]
    omega
  | append_singleton xs x ih =>
    intro acc h
    rw [accumulate_append, digitsValue_append, ih acc h]
    simp only [accumulate, digitsValue, List.foldl_cons, List.foldl_nil]
    omega


theorem decodeFrom_flagged (init : List Nat) :
    ∀ (acc : Nat) (rest : List Nat), (∀ d ∈ init, d < 128) →
      Rvlq.DecodeFrom acc (init.map (fun g => 0x80 ||| g) ++ rest) =
        ((Rvlq.DecodeFrom (accumulate acc init) rest).1,
          (Rvlq.DecodeFrom (accumulate acc init) rest).2.1 + init.length,
          (Rvlq.DecodeFrom (accumulate acc init) rest).2.2) := by
  induction init with
  | nil =>
    intro acc rest _
    simp [accumulate]
  | cons d ds ih =>
    intro acc rest h
    have hd : d < 128 := h d (List.mem_cons_self _ _)
    have hds : ∀ x ∈ ds, x < 128 := fun x hx => h x (List.mem_cons_of_mem _ hx)
    rw [List.map_cons, List.cons_append, Rvlq.DecodeFrom]
    simp only
    rw [if_neg (flag_high_bit d hd), flag_low_bits d hd, ih _ rest hds]
    simp only [accumulate, List.foldl_cons, List.length_cons]
    refine Prod.ext rfl (Prod.ext ?_ rfl)
    simp only
    omega

theorem decodeFrom_terminal (acc t : Nat) (rest : List Nat) (ht : t < 128) :
    Rvlq.DecodeFrom acc (t :: rest) = ((acc * 128 + t) % 2 ^ 64, 1, true) := by
  simp only [Rvlq.DecodeFrom]
  rw [if_pos (raw_high_bit t ht), Nat.mod_eq_of_lt ht]

theorem decodeFrom_run (init : List Nat) (acc t : Nat) (rest : List Nat)
    (h : ∀ d ∈ init, d < 128) (ht : t < 128) :
    Rvlq.DecodeFrom acc (init.map (fun g => 0x80 ||| g) ++ t :: rest) =
      (accumulate acc (init ++ [t]), init.length + 1, true) := by
  rw [decodeFrom_flagged init acc (t :: rest) h, decodeFrom_terminal _ _ _ ht,
    accumulate_append]
  simp only [accumulate, List.foldl_cons, List.foldl_nil, Nat.add_comm]

/-- The shape of the forward encoding: flagged leading digits, then the raw last digit. -/
theorem encodeForward_shape (value : Nat) :
    ∃ init, (∀ d ∈ init, d < 128) ∧ VLQDigitSequence value = init ++ [value % 128] ∧
      EncodeForward value = init.map (fun g => 0x80 ||| g) ++ [value % 128] := by
  obtain ⟨init, hinit⟩ := digitsAux_split value value
  refine ⟨init, ?_, hinit, ?_⟩
  · intro d hd
    exact digitsAux_lt value value d (by rw [hinit]; exact List.mem_append_left _ hd)
  · simp only [EncodeForward, VLQDigitSequence, hinit, List.length_append,
      List.length_singleton, Nat.add_sub_cancel, List.take_left', List.drop_left']

theorem encodeForward_length (value : Nat) :
    (EncodeForward value).length = digitCount value := by
  obtain ⟨init, -, hds, hF⟩ := encodeForward_shape value
  simp [digitCount, hds, hF]

theorem digitCount_pos (value : Nat) : 1 ≤ digitCount value := by
  obtain ⟨init, -, hds, -⟩ := encodeForward_shape value
  simp [digitCount, hds]

theorem digitCount_bound (value : Nat) (h : 1 ≤ value) : 2 * digitCount value ≤ value + 1 :=
  digitsAux_length_bound value value h

/-- The digit count is the minimal one: `128 ^ (k - 1) ≤ value < 128 ^ k` for `value ≥ 1`. -/
theorem digitsAux_length_minimal (fuel : Nat) :
    ∀ value, value ≤ fuel →
      value < 128 ^ (digitsAux fuel value).length ∧
        (1 ≤ value → 128 ^ ((digitsAux fuel value).length - 1) ≤ value) := by
  induction fuel with
  | zero =>
    intro value h
    have : value = 0 := by omega
    subst this
    exact ⟨by decide, by omega⟩
  | succ fuel ih =>
    intro value h
    unfold digitsAux
    split
    · simp only [List.length_singleton, pow_one, Nat.sub_self, pow_zero]
      omega
    · obtain ⟨hlt, hge⟩ := ih (value / 128) (by omega)
      have hge := hge (by omega)
      obtain ⟨l, hl⟩ : ∃ l, (digitsAux fuel (value / 128)).length = l + 1 := by
        obtain ⟨init, hinit⟩ := digitsAux_split fuel (value / 128)
        exact ⟨init.length, by rw [hinit]; simp⟩
      simp only [List.length_append, List.length_singleton, hl, Nat.add_sub_cancel] at hlt hge ⊢
      rw [pow_succ] at hlt ⊢
      rw [pow_succ]
      constructor
      · omega
      · intro _
        omega

theorem digitCount_minimal (value : Nat) (h : 1 ≤ value) :
    128 ^ (digitCount value - 1) ≤ value ∧ value < 128 ^ digitCount value :=
  ⟨(digitsAux_length_minimal value value (Nat.le_refl _)).2 h,
    (digitsAux_length_minimal value value (Nat.le_refl _)).1⟩

theorem decodeFrom_encodeForward (v : Nat) (rest : List Nat) (hv : v < 2 ^ 64) :
    Rvlq.DecodeFrom 0 (EncodeForward v ++ rest) = (v, digitCount v, true) := by
  obtain ⟨I, hI, hds, hF⟩ := encodeForward_shape v
  have hval : digitsValue 0 (I ++ [v % 128]) = v := by
    rw [← hds]
    exact digitsValue_digitsAux v v (Nat.le_refl v)
  have hk : digitCount v = I.length + 1 := by simp [digitCount, hds]
  rw [hF, List.append_assoc, List.singleton_append,
    decodeFrom_run I 0 _ rest hI (Nat.mod_lt _ (by decide)),
    accumulate_eq_mod _ 0 (by decide), hval, hk, Nat.mod_eq_of_lt hv]

end vlq

/-! ## The padding block -/

namespace varpad

theorem tail_region_shape (I : List Nat) (t : Nat) (region : List Nat) (m : Nat)
    (hlen : m + 2 * I.length + 1 = region.length) :
    ∃ Y, ((I ++ [t]) ++ region.drop (I.length + 1)).take (I.length + m) ++ (t :: I.reverse)
        = I ++ t :: Y ∧
      Y.length = m + I.length ∧ Y.drop m = I.reverse := by
  rw [List.append_assoc, List.take_append]
  cases m with
  | zero =>
    exact ⟨I.reverse, by simp, by simp, by simp⟩
  | succ m =>
    have hl : ((region.drop (I.length + 1)).take m).length = m := by
      simp only [List.length_take, List.length_drop]
      omega
    refine ⟨(region.drop (I.length + 1)).take m ++ t :: I.reverse, by simp, ?_, ?_⟩
    · simp only [List.length_append, hl, List.length_cons, List.length_reverse]
      omega
    · rw [List.drop_append_eq_append_drop, hl]
      simp [List.drop_eq_nil_of_le, hl]

theorem toInt_of_lt (v : Nat) (h : v < 2 ^ 63) : toInt v = (v : Int) := by
  simp only [toInt, wrapInt]
  omega

theorem rvlq_encodeTo_eq (v : Nat) (I : List Nat) (region : List Nat)
    (hF : vlq.EncodeForward v = I ++ [v % 128]) (hlen : I.length + 1 ≤ region.length) :
    vlq.Rvlq.EncodeTo v region
      = some (I.length + 1, (I ++ [v % 128]) ++ region.drop (I.length + 1)) := by
  simp only [vlq.Rvlq.EncodeTo, hF, List.length_append, List.length_singleton]
  rw [if_neg (by omega)]

theorem rvlq_encodeReversedTo_eq (v : Nat) (I : List Nat) (region1 : List Nat) (n : Nat)
    (hF : vlq.EncodeForward v = I ++ [v % 128]) (hlen : region1.length = n + (I.length + 1)) :
    vlq.Rvlq.EncodeReversedTo v region1
      = some (I.length + 1, region1.take n ++ (v % 128 :: I.reverse)) := by
  simp only [vlq.Rvlq.EncodeReversedTo, vlq.EncodeReversed, hF, List.length_reverse,
    List.length_append, List.length_singleton, hlen, List.reverse_append, List.reverse_cons,
    List.reverse_nil, List.nil_append, List.singleton_append, List.length_cons]
  rw [if_neg (by omega), Nat.add_sub_cancel]

/-- What `EncodeTo` leaves in a buffer of at least `v` bytes, for `1 ≤ v < 2 ^ 63`. -/
theorem encodeTo_layout (v : Nat) (buffer : List Nat) (h1 : 1 ≤ v) (h63 : v < 2 ^ 63)
    (hlen : v ≤ buffer.length) :
    Varpad.EncodeTo v buffer =
      some ⟨vlq.EncodeForward v
        ++ List.replicate (v + 1 - 2 * vlq.digitCount v) (v % 128)
        ++ (vlq.EncodeReversed v).drop 1 ++ buffer.drop v, false⟩ := by
  obtain ⟨I₀, hI, hds, hF⟩ := vlq.encodeForward_shape v
  have hk : vlq.digitCount v = I₀.length + 1 := by simp [vlq.digitCount, hds]
  have hb := vlq.digitCount_bound v h1
  rw [hk] at hb
  generalize hIdef : I₀.map (fun g => 0x80 ||| g) = I at hF
  have hIlen : I.length = I₀.length := by rw [← hIdef, List.length_map]
  rw [← hIlen] at hk hb
  obtain ⟨m, hm⟩ : ∃ m, m + 2 * I.length + 1 = v := ⟨v + 1 - 2 * (I.length + 1), by omega⟩
  have htake : (buffer.take v).length = v := by simp [hlen]
  obtain ⟨Y, hY, hYlen, hYdrop⟩ := tail_region_shape I (v % 128) (buffer.take v) m
    (by rw [htake]; exact hm)
  have hE := rvlq_encodeTo_eq v I (buffer.take v) hF (by omega)
  have hR := rvlq_encodeReversedTo_eq v I
    ((I ++ [v % 128]) ++ (buffer.take v).drop (I.length + 1)) (I.length + m) hF
    (by simp only [List.length_append, List.length_singleton, List.length_drop, htake]; omega)
  rw [hY] at hR
  have hmid : (I ++ v % 128 :: Y)[I.length + 1 - 1]? = some (v % 128) := by
    rw [Nat.add_sub_cancel, List.getElem?_append_right (Nat.le_refl _)]
    simp
  have hrep : v + 1 - 2 * vlq.digitCount v = m := by omega
  unfold Varpad.EncodeTo
  rw [if_neg (by omega), toInt_of_lt v h63, if_neg (by omega), if_neg (by omega)]
  simp only [Int.toNat_ofNat, hE, hR, hmid]
  rw [if_neg (by omega), if_neg (by simp only [List.length_append, List.length_cons]; omega)]
  have hhigh : (I ++ v % 128 :: Y).length - (I.length + 1) + 1 = (I.length + 1) + m := by
    simp only [List.length_append, List.length_cons]
    omega
  rw [hhigh, hrep, hF, vlq.EncodeReversed, hF]
  have e1 : (I ++ v % 128 :: Y).take (I.length + 1) = I ++ [v % 128] := by
    simp [List.take_append]
  have e2 : (I ++ v % 128 :: Y).drop (I.length + 1 + m) = I.reverse := by
    rw [← hYdrop]
    simp only [List.drop_append, Nat.add_assoc, Nat.add_comm 1 m, List.drop_succ_cons]
  rw [e1, e2]
  simp

/-- The layout `F`, filler bytes, `R[1..k-1]` reads the same in both directions. -/
theorem block_reverse (v m : Nat) :
    (vlq.EncodeForward v ++ List.replicate m (v % 128)
      ++ (vlq.EncodeReversed v).drop 1).reverse
      = vlq.EncodeForward v ++ List.replicate m (v % 128) ++ (vlq.EncodeReversed v).drop 1 := by
  obtain ⟨I, -, -, hF⟩ := vlq.encodeForward_shape v
  rw [vlq.EncodeReversed, hF]
  simp only [List.reverse_append, List.reverse_cons, List.reverse_nil, List.nil_append,
    List.singleton_append, List.drop_succ_cons, List.drop_zero, List.reverse_reverse,
    List.reverse_replicate, List.append_assoc]
  congr 1
  rw [← List.replicate_succ, List.replicate_succ', List.append_assoc]
  rfl

theorem decodeFromBeginning_encodeForward (v : Nat) (rest : List Nat) (hv : v < 2 ^ 64) :
    DecodeFromBeginning (vlq.EncodeForward v ++ rest) = (v, vlq.digitCount v, true) :=
  vlq.decodeFrom_encodeForward v rest hv

theorem encodeForward_small (v : Nat) (h1 : 1 ≤ v) (h127 : v ≤ 127) :
    vlq.EncodeForward v = [v] ∧ vlq.digitCount v = 1 := by
  have hds : vlq.VLQDigitSequence v = [v] := by
    obtain ⟨n, rfl⟩ : ∃ n, v = n + 1 := ⟨v - 1, by omega⟩
    simp only [vlq.VLQDigitSequence, vlq.digitsAux]
    rw [if_pos (by omega)]
  simp [vlq.EncodeForward, vlq.digitCount, hds]

theorem shift_filler (X : List Nat) (a n : Nat) (Y : List Nat) :
    (X ++ [a]) ++ List.replicate n a ++ Y = X ++ List.replicate (n + 1) a ++ Y := by
  rw [List.replicate_succ]
  simp only [List.append_assoc, List.singleton_append]

theorem block_length (v : Nat) (h1 : 1 ≤ v) :
    (vlq.EncodeForward v ++ List.replicate (v + 1 - 2 * vlq.digitCount v) (v % 128)
      ++ (vlq.EncodeReversed v).drop 1).length = v := by
  have hb := vlq.digitCount_bound v h1
  have hp := vlq.digitCount_pos v
  simp only [List.length_append, List.length_replicate, List.length_drop,
    vlq.EncodeReversed, List.length_reverse, vlq.encodeForward_length]
  omega

theorem decodeFromEnd_block (v m : Nat) (p : List Nat) (hv : v < 2 ^ 64) :
    DecodeFromEnd (p ++ (vlq.EncodeForward v ++ List.replicate m (v % 128)
      ++ (vlq.EncodeReversed v).drop 1)) = (v, vlq.digitCount v, false) := by
  simp only [DecodeFromEnd, Varpad.DecodeFromEnd, vlq.Rvlq.DecodeReversedFrom]
  rw [List.reverse_append, block_reverse, List.append_assoc, List.append_assoc,
    vlq.decodeFrom_encodeForward v _ hv]
  rfl

theorem padding_spec (length modulus : Int) (hl : 0 ≤ length) (hM : 2 ≤ modulus)
    (hint : modulus < 2 ^ 63) :
    (Padding length modulus : Int) = modulus - length % modulus ∧
      0 ≤ length % modulus ∧ length % modulus < modulus := by
  have h0 : 0 ≤ length % modulus := Int.emod_nonneg _ (by omega)
  have h2 : length % modulus < modulus := Int.emod_lt_of_pos _ (by omega)
  refine ⟨?_, h0, h2⟩
  unfold Padding
  rw [if_neg (by omega)]
  simp only [Int.tmod_eq_emod hl (by omega : (0 : Int) ≤ modulus), toVarpad, wrapInt]
  omega

theorem decodeFrom_split (v j : Nat) (rest : List Nat) (hv : v < 2 ^ 64)
    (hj : j < vlq.digitCount v) :
    ∃ s, vlq.Rvlq.DecodeFrom 0 ((vlq.EncodeForward v ++ rest).take j) = (s, j, false) ∧
      vlq.Rvlq.DecodeFrom s ((vlq.EncodeForward v ++ rest).drop j)
        = (v, vlq.digitCount v - j, true) := by
  obtain ⟨I, hI, hds, hF⟩ := vlq.encodeForward_shape v
  have hval : vlq.digitsValue 0 (I ++ [v % 128]) = v := by
    rw [← hds]
    exact vlq.digitsValue_digitsAux v v (Nat.le_refl v)
  have hk : vlq.digitCount v = I.length + 1 := by simp [vlq.digitCount, hds]
  have hjI : j ≤ I.length := by omega
  have hI1 : ∀ d ∈ I.take j, d < 128 := fun d hd => hI d (List.mem_of_mem_take hd)
  have hI2 : ∀ d ∈ I.drop j, d < 128 := fun d hd => hI d (List.mem_of_mem_drop hd)
  have hlen1 : (I.take j).length = j := by simp [hjI]
  have htake : (vlq.EncodeForward v ++ rest).take j
      = (I.take j).map (fun g => 0x80 ||| g) ++ [] := by
    rw [hF, List.append_assoc, List.take_append_of_le_length (by simp [hjI]),
      List.map_take, List.append_nil]
  have hdrop : (vlq.EncodeForward v ++ rest).drop j
      = (I.drop j).map (fun g => 0x80 ||| g) ++ v % 128 :: rest := by
    rw [hF, List.append_assoc, List.drop_append_of_le_length (by simp [hjI]),
      List.map_drop, List.singleton_append]
  refine ⟨vlq.accumulate 0 (I.take j), ?_, ?_⟩
  · rw [htake, vlq.decodeFrom_flagged _ 0 [] hI1, hlen1]
    simp [vlq.Rvlq.DecodeFrom]
  · rw [hdrop, vlq.decodeFrom_run _ _ _ rest hI2 (Nat.mod_lt _ (by decide)),
      ← vlq.accumulate_append, ← List.append_assoc, List.take_append_drop,
      vlq.accumulate_eq_mod _ 0 (by decide), hval, Nat.mod_eq_of_lt hv, hk,
      List.length_drop]
    congr 2
    omega

theorem decodeFrom_unterminated (b : List Nat) :
    ∀ acc, (∀ x ∈ b, x &&& 0x80 ≠ 0) →
      vlq.Rvlq.DecodeFrom acc b
        = (vlq.accumulate acc (b.map (fun x => x % 128)), b.length, false) := by
  induction b with
  | nil =>
    intro acc _
    rfl
  | cons x xs ih =>
    intro acc h
    rw [vlq.Rvlq.DecodeFrom]
    simp only
    rw [if_neg (h x (List.mem_cons_self _ _)),
      ih _ (fun y hy => h y (List.mem_cons_of_mem _ hy))]
    rfl

theorem block_tail_flagged (v m j : Nat) (hj : j < vlq.digitCount v) :
    ∀ x ∈ (vlq.EncodeForward v ++ List.replicate m (v % 128)
      ++ (vlq.EncodeReversed v).drop 1).drop (vlq.digitCount v + m + (vlq.digitCount v - 1) - j),
      x &&& 0x80 ≠ 0 := by
  obtain ⟨I, hI, hds, hF⟩ := vlq.encodeForward_shape v
  have hk : vlq.digitCount v = I.length + 1 := by simp [vlq.digitCount, hds]
  intro x hx
  rw [vlq.EncodeReversed, hF] at hx
  simp only [List.reverse_append, List.reverse_cons, List.reverse_nil, List.nil_append,
    List.singleton_append, List.drop_succ_cons, List.drop_zero] at hx
  rw [List.drop_append_eq_append_drop] at hx
  have hnil : List.drop (vlq.digitCount v + m + (vlq.digitCount v - 1) - j)
      (List.map (fun g => 0x80 ||| g) I ++ [v % 128] ++ List.replicate m (v % 128)) = [] := by
    apply List.drop_eq_nil_of_le
    simp only [List.length_append, List.length_map, List.length_singleton,
      List.length_replicate]
    omega
  rw [hnil, List.nil_append] at hx
  have hx2 := List.mem_of_mem_drop hx
  rw [List.mem_reverse, List.mem_map] at hx2
  obtain ⟨d, hd, rfl⟩ := hx2
  exact vlq.flag_high_bit d (hI d hd)

theorem encode_steps (v : Nat) (region : List Nat) (h1 : 1 ≤ v) (hlen : region.length = v) :
    ∃ r1 r2, vlq.Rvlq.EncodeTo v region = some (vlq.digitCount v, r1) ∧
      vlq.Rvlq.EncodeReversedTo v r1 = some (vlq.digitCount v, r2) ∧
      r2.length = v ∧
      r2[vlq.digitCount v - 1]? = some (v % 128) ∧
      (vlq.EncodeForward v)[vlq.digitCount v - 1]? = some (v % 128) := by
  obtain ⟨I₀, hI, hds, hF⟩ := vlq.encodeForward_shape v
  have hk : vlq.digitCount v = I₀.length + 1 := by simp [vlq.digitCount, hds]
  have hb := vlq.digitCount_bound v h1
  rw [hk] at hb
  generalize hIdef : I₀.map (fun g => 0x80 ||| g) = I at hF
  have hIlen : I.length = I₀.length := by rw [← hIdef, List.length_map]
  rw [← hIlen] at hk hb
  obtain ⟨m, hm⟩ : ∃ m, m + 2 * I.length + 1 = v := ⟨v + 1 - 2 * (I.length + 1), by omega⟩
  obtain ⟨Y, hY, hYlen, -⟩ := tail_region_shape I (v % 128) region m (by rw [hlen]; exact hm)
  have hE := rvlq_encodeTo_eq v I region hF (by omega)
  have hR := rvlq_encodeReversedTo_eq v I
    ((I ++ [v % 128]) ++ region.drop (I.length + 1)) (I.length + m) hF
    (by simp only [List.length_append, List.length_singleton, List.length_drop, hlen]; omega)
  rw [hY] at hR
  rw [hk]
  refine ⟨_, _, hE, hR, ?_, ?_, ?_⟩
  · simp only [List.length_append, List.length_cons, hYlen]
    omega
  · rw [Nat.add_sub_cancel, List.getElem?_append_right (Nat.le_refl _)]
    simp
  · rw [hF, Nat.add_sub_cancel, List.getElem?_append_right (Nat.le_refl _)]
    simp

theorem spec_order_shape (I : List Nat) (t m : Nat) (dest : List Nat)
    (hlen : m + 2 * I.length + 1 = dest.length) :
    writeAt (writeAt (writeAt dest 0 (I ++ [t])) (I.length + 1) (List.replicate m t))
      (I.length + m) (t :: I.reverse) = I ++ [t] ++ List.replicate m t ++ I.reverse := by
  have hA : writeAt dest 0 (I ++ [t]) = (I ++ [t]) ++ dest.drop (I.length + 1) := by
    simp [writeAt]
  have hB : writeAt ((I ++ [t]) ++ dest.drop (I.length + 1)) (I.length + 1)
      (List.replicate m t)
      = I ++ (List.replicate m t ++ [t]) ++ dest.drop (I.length + 1 + m) := by
    have e1 : ((I ++ [t]) ++ dest.drop (I.length + 1)).take (I.length + 1) = I ++ [t] :=
      List.take_left' (by simp)
    have e2 : ((I ++ [t]) ++ dest.drop (I.length + 1)).drop (I.length + 1 + m)
        = dest.drop (I.length + 1 + m) := by
      rw [List.drop_append_eq_append_drop]
      simp [List.drop_eq_nil_of_le, Nat.add_comm m]
    rw [writeAt, List.length_replicate, e1, e2, ← List.replicate_succ',
      List.replicate_succ]
    simp
  have hC : writeAt (I ++ (List.replicate m t ++ [t]) ++ dest.drop (I.length + 1 + m))
      (I.length + m) (t :: I.reverse) = I ++ List.replicate m t ++ t :: I.reverse := by
    have e1 : (I ++ (List.replicate m t ++ [t]) ++ dest.drop (I.length + 1 + m)).take
        (I.length + m) = I ++ List.replicate m t := by
      rw [← List.append_assoc, List.append_assoc (I ++ List.replicate m t)]
      exact List.take_left' (by simp)
    have e2 : (I ++ (List.replicate m t ++ [t]) ++ dest.drop (I.length + 1 + m)).drop
        (I.length + m + (t :: I.reverse).length) = [] := by
      apply List.drop_eq_nil_of_le
      simp only [List.length_append, List.length_replicate, List.length_singleton,
        List.length_drop, List.length_cons, List.length_reverse, List.length_nil]
      omega
    rw [writeAt, e1, e2, List.append_nil]
  rw [hA, hB, hC, List.append_assoc I, List.append_assoc I, List.append_assoc I]
  congr 1
  rw [List.singleton_append, ← List.replicate_succ, List.replicate_succ',
    List.append_assoc]
  rfl

theorem specEncodeBlock_layout (v : Nat) (buffer : List Nat) (h1 : 1 ≤ v)
    (hlen : buffer.length = v) :
    specEncodeBlock v buffer = vlq.EncodeForward v
      ++ List.replicate (v + 1 - 2 * vlq.digitCount v) (v % 128)
      ++ (vlq.EncodeReversed v).drop 1 := by
  obtain ⟨I₀, hI, hds, hF⟩ := vlq.encodeForward_shape v
  have hk : vlq.digitCount v = I₀.length + 1 := by simp [vlq.digitCount, hds]
  have hb := vlq.digitCount_bound v h1
  rw [hk] at hb
  generalize hIdef : I₀.map (fun g => 0x80 ||| g) = I at hF
  have hIlen : I.length = I₀.length := by rw [← hIdef, List.length_map]
  rw [← hIlen] at hk hb
  obtain ⟨m, hm⟩ : ∃ m, m + 2 * I.length + 1 = v := ⟨v + 1 - 2 * (I.length + 1), by omega⟩
  have hshape := spec_order_shape I (v % 128) m buffer (by rw [hlen]; exact hm)
  have hfill : (I ++ [v % 128]).getD (I.length + 1 - 1) 0 = v % 128 := by
    simp [List.getD, List.getElem?_append_right]
  have hcount : v - (I.length + 1) + 1 - (I.length + 1) = m := by omega
  have hpos : v - (I.length + 1) = I.length + m := by omega
  have hrep : v + 1 - 2 * (I.length + 1) = m := by omega
  have hcount2 : I.length + m + 1 - (I.length + 1) = m := by omega
  simp only [specEncodeBlock, vlq.EncodeReversed, hF, List.length_append,
    List.length_singleton, hfill, hcount, hpos, hk, hrep, hcount2]
  simp only [List.reverse_append, List.reverse_cons, List.reverse_nil, List.nil_append,
    List.singleton_append, List.drop_succ_cons, List.drop_zero]
  exact hshape

/-! ## The claims -/

/-- C1: round trip from the front.  For every `v ≥ 1`, encoding `v` into a `v`-byte buffer
succeeds and leaves a block of `v` bytes, and every buffer `b` whose first `k` bytes are the
first `k` bytes of that block, `k` being the length of the forward VLQ of `v`, decodes from
the beginning to value `v`, `k` bytes decoded and `isComplete = true`.  The length of a Go
slice is an `int`. -/
theorem roundtrip_from_beginning (v : Nat) (buffer : List Nat) (h1 : 1 ≤ v)
    (hlen : buffer.length = v) (hint : buffer.length < 2 ^ 63) :
    ∃ block, Varpad.EncodeTo v buffer = some ⟨block, false⟩ ∧ block.length = v ∧
      ∀ b : List Nat,
        b.take (vlq.EncodeForward v).length = block.take (vlq.EncodeForward v).length →
          DecodeFromBeginning b = (v, (vlq.EncodeForward v).length, true) := by
  have h63 : v < 2 ^ 63 := hlen ▸ hint
  have hb := vlq.digitCount_bound v h1
  have hk := vlq.encodeForward_length v
  refine ⟨_, encodeTo_layout v buffer h1 h63 (by omega), ?_, ?_⟩
  · simp only [List.length_append, List.length_replicate, List.length_drop,
      vlq.EncodeReversed, List.length_reverse, hk, hlen]
    have hp := vlq.digitCount_pos v
    omega
  · intro b hb
    rw [List.append_assoc, List.append_assoc, List.take_left' rfl] at hb
    rw [← List.take_append_drop (vlq.EncodeForward v).length b, hb, hk]
    exact decodeFromBeginning_encodeForward v _ (by omega)

theorem roundtrip_from_beginning_witness :
    1 ≤ 200 ∧ (List.replicate 200 0).length = 200 ∧
      ∃ block, Varpad.EncodeTo 200 (List.replicate 200 0) = some ⟨block, false⟩ ∧
        block.length = 200 ∧ DecodeFromBeginning block = (200, 2, true) := by
  refine ⟨by decide, List.length_replicate 200 0, ?_⟩
  obtain ⟨block, hE, hl, hD⟩ :=
    roundtrip_from_beginning 200 (List.replicate 200 0) (by decide)
      (List.length_replicate 200 0) (by rw [List.length_replicate]; norm_num)
  exact ⟨block, hE, hl, hD block rfl⟩

/-- C2: round trip from the back.  For every `v ≥ 1` and every byte sequence `p`, encoding
`v` into a `v`-byte buffer succeeds, and decoding `p` followed by the block from the end
returns value `v`, `k` bytes decoded (`k` the number of base-128 digits of `v`) and a nil
error.  The length of a Go slice is an `int`. -/
theorem roundtrip_from_end (v : Nat) (buffer p : List Nat) (h1 : 1 ≤ v)
    (hlen : buffer.length = v) (hint : buffer.length < 2 ^ 63) :
    ∃ block, Varpad.EncodeTo v buffer = some ⟨block, false⟩ ∧
      DecodeFromEnd (p ++ block) = (v, vlq.digitCount v, false) := by
  have h63 : v < 2 ^ 63 := hlen ▸ hint
  refine ⟨_, encodeTo_layout v buffer h1 h63 (by omega), ?_⟩
  have hdrop : buffer.drop v = [] := List.drop_eq_nil_of_le (by omega)
  rw [hdrop, List.append_nil]
  exact decodeFromEnd_block v _ p (by omega)

theorem roundtrip_from_end_witness :
    1 ≤ 200 ∧ (List.replicate 200 0).length = 200 ∧
      ∃ block, Varpad.EncodeTo 200 (List.replicate 200 0) = some ⟨block, false⟩ ∧
        DecodeFromEnd ([0xaa, 0xbb, 0xcc] ++ block) = (200, vlq.digitCount 200, false) :=
  ⟨by decide, List.length_replicate 200 0,
    roundtrip_from_end 200 (List.replicate 200 0) [0xaa, 0xbb, 0xcc] (by decide)
      (List.length_replicate 200 0) (by rw [List.length_replicate]; norm_num)⟩

/-- C3: byte-exact layout.  For every `v ≥ 1` and every buffer of exactly `v` bytes,
whatever its contents, `EncodeTo` succeeds and leaves `F`, then `v - 2k + 1` copies of the
filler byte `F[k-1]`, then `R[1..k-1]`, with `F` the forward VLQ of `v`, `k` its length and
`R` its reverse; `v - 2k + 1` is not negative.  The result does not depend on the prior
contents.  For `v = 128` it is `0x81`, 126 bytes `0x00`, `0x81`; for `v = 0x200000` it is
`0x81 0x80 0x80`, `0x200000 - 6` bytes `0x00`, `0x80 0x80 0x81`.  The length of a Go slice
is an `int`. -/
theorem encodeTo_byte_exact_layout (v : Nat) (buffer : List Nat) (h1 : 1 ≤ v)
    (hlen : buffer.length = v) (hint : buffer.length < 2 ^ 63) :
    (∃ filler, (vlq.EncodeForward v)[(vlq.EncodeForward v).length - 1]? = some filler ∧
      2 * (vlq.EncodeForward v).length ≤ v + 1 ∧
      Varpad.EncodeTo v buffer =
        some ⟨vlq.EncodeForward v
          ++ List.replicate (v + 1 - 2 * (vlq.EncodeForward v).length) filler
          ++ (vlq.EncodeForward v).reverse.drop 1, false⟩) ∧
    (v = 128 →
      Varpad.EncodeTo v buffer = some ⟨[0x81] ++ List.replicate 126 0x00 ++ [0x81], false⟩) ∧
    (v = 0x200000 →
      Varpad.EncodeTo v buffer =
        some ⟨[0x81, 0x80, 0x80] ++ List.replicate (0x200000 - 6) 0x00
          ++ [0x80, 0x80, 0x81], false⟩) := by
  have h63 : v < 2 ^ 63 := hlen ▸ hint
  have hk := vlq.encodeForward_length v
  have hE := encodeTo_layout v buffer h1 h63 (by omega)
  have hdrop : buffer.drop v = [] := List.drop_eq_nil_of_le (by omega)
  rw [hdrop, List.append_nil] at hE
  refine ⟨⟨v % 128, ?_, ?_, ?_⟩, ?_, ?_⟩
  · obtain ⟨I, -, -, hF⟩ := vlq.encodeForward_shape v
    rw [hF, List.length_append, List.length_singleton, Nat.add_sub_cancel,
      List.getElem?_append_right (Nat.le_refl _)]
    simp
  · rw [hk]
    exact vlq.digitCount_bound v h1
  · rw [hE, hk]
    rfl
  · intro h
    subst h
    have e1 : vlq.EncodeForward 128 = [0x81, 0x00] := by decide
    have e2 : vlq.digitCount 128 = 2 := by decide
    have e4 : (128 : Nat) % 128 = 0 := by norm_num
    have e5 : List.drop 1 ([0x81, 0x00] : List Nat).reverse = [0x81] := by decide
    rw [hE, vlq.EncodeReversed, e1, e2, e4, e5]
    exact congrArg (fun b => some (EncodeOutcome.mk b false))
      (shift_filler [0x81] 0x00 (128 + 1 - 2 * 2) [0x81])
  · intro h
    subst h
    have e1 : vlq.EncodeForward 0x200000 = [0x81, 0x80, 0x80, 0x00] := by decide
    have e2 : vlq.digitCount 0x200000 = 4 := by decide
    have e4 : (0x200000 : Nat) % 128 = 0 := by norm_num
    have e5 : List.drop 1 ([0x81, 0x80, 0x80, 0x00] : List Nat).reverse
        = [0x80, 0x80, 0x81] := by decide
    rw [hE, vlq.EncodeReversed, e1, e2, e4, e5]
    exact congrArg (fun b => some (EncodeOutcome.mk b false))
      (shift_filler [0x81, 0x80, 0x80] 0x00 (0x200000 + 1 - 2 * 4) [0x80, 0x80, 0x81])

theorem encodeTo_byte_exact_layout_witness :
    1 ≤ 128 ∧ (List.replicate 128 0xff).length = 128 ∧
      Varpad.EncodeTo 128 (List.replicate 128 0xff)
        = some ⟨[0x81] ++ List.replicate 126 0x00 ++ [0x81], false⟩ :=
  ⟨by decide, List.length_replicate 128 0xff,
    (encodeTo_byte_exact_layout 128 (List.replicate 128 0xff) (by decide)
      (List.length_replicate 128 0xff) (by rw [List.length_replicate]; norm_num)).2.1 rfl⟩

/-- C4: single-digit values.  For every `v` with `1 ≤ v ≤ 127`, `EncodeTo` on a `v`-byte
buffer succeeds and leaves every one of the `v` bytes equal to `v`, and
`DecodeFromBeginning` on that buffer returns value `v`, one byte decoded and
`isComplete = true`. -/
theorem single_digit_block (v : Nat) (buffer : List Nat) (h1 : 1 ≤ v) (h127 : v ≤ 127)
    (hlen : buffer.length = v) :
    Varpad.EncodeTo v buffer = some ⟨List.replicate v v, false⟩ ∧
      DecodeFromBeginning (List.replicate v v) = (v, 1, true) := by
  obtain ⟨hF, hk⟩ := encodeForward_small v h1 h127
  have hE := encodeTo_layout v buffer h1 (by omega) (by omega)
  have hdrop : buffer.drop v = [] := List.drop_eq_nil_of_le (by omega)
  have hrep : List.replicate v v = [v] ++ List.replicate (v + 1 - 2 * 1) (v % 128) := by
    obtain ⟨n, rfl⟩ : ∃ n, v = n + 1 := ⟨v - 1, by omega⟩
    rw [List.replicate_succ, Nat.mod_eq_of_lt (by omega)]
    simp
  constructor
  · rw [hE, hdrop, vlq.EncodeReversed, hF, hk, hrep]
    simp
  · have hD := decodeFromBeginning_encodeForward v
      (List.replicate (v + 1 - 2 * 1) (v % 128)) (by omega)
    rw [hF, hk] at hD
    rw [hrep]
    exact hD

theorem single_digit_block_witness :
    1 ≤ 3 ∧ 3 ≤ 127 ∧ [7, 8, 9].length = 3 ∧
      Varpad.EncodeTo 3 [7, 8, 9] = some ⟨List.replicate 3 3, false⟩ ∧
      DecodeFromBeginning (List.replicate 3 3) = (3, 1, true) :=
  ⟨by decide, by decide, rfl, single_digit_block 3 [7, 8, 9] (by decide) (by decide) rfl⟩

/-- C5: the capacity guard is atomic.  For every `v` with `1 ≤ v ≤ 2^63 - 1` and every
buffer shorter than `v`, `EncodeTo` returns a non-nil error and leaves the buffer as it
was. -/
theorem capacity_guard_atomic (v : Nat) (buffer : List Nat) (h1 : 1 ≤ v)
    (h63 : v ≤ 2 ^ 63 - 1) (hlen : buffer.length < v) :
    Varpad.EncodeTo v buffer = some ⟨buffer, true⟩ := by
  unfold Varpad.EncodeTo
  rw [if_neg (by omega), toInt_of_lt v (by omega), if_pos (by omega)]

theorem capacity_guard_atomic_witness :
    1 ≤ 5 ∧ 5 ≤ 2 ^ 63 - 1 ∧ [1, 2, 3].length < 5 ∧
      Varpad.EncodeTo 5 [1, 2, 3] = some ⟨[1, 2, 3], true⟩ :=
  ⟨by decide, by decide, by decide,
    capacity_guard_atomic 5 [1, 2, 3] (by decide) (by decide) (by decide)⟩

/-- C6: zero padding writes nothing.  For `v = 0` and every buffer, of any length,
`EncodeTo` returns a nil error and leaves the buffer as it was. -/
theorem zero_padding_writes_nothing (buffer : List Nat) :
    Varpad.EncodeTo 0 buffer = some ⟨buffer, false⟩ := by
  unfold Varpad.EncodeTo
  rw [if_pos (by decide)]

/-- C7: the padding calculator.  For every `length ≥ 0` and every modulus (a Go `int`): if
`modulus < 2` then `Padding(length, modulus) = 0`; otherwise it is
`modulus - (length mod modulus)` and `length + Padding(length, modulus)` is divisible by
`modulus`.  `Padding(5, 4) = 3`. -/
theorem padding_calculator (length modulus : Int) (hl : 0 ≤ length)
    (hint : modulus < 2 ^ 63) :
    (modulus < 2 → Padding length modulus = 0) ∧
    (2 ≤ modulus →
      (Padding length modulus : Int) = modulus - length % modulus ∧
      modulus ∣ length + (Padding length modulus : Int)) ∧
    Padding 5 4 = 3 := by
  refine ⟨?_, ?_, by decide⟩
  · intro h
    unfold Padding
    rw [if_pos h]
  · intro hM
    obtain ⟨hP, -, -⟩ := padding_spec length modulus hl hM hint
    refine ⟨hP, length / modulus + 1, ?_⟩
    rw [hP]
    have h := Int.emod_add_ediv length modulus
    linear_combination -h

theorem padding_calculator_witness :
    (0 : Int) ≤ 5 ∧ (4 : Int) < 2 ^ 63 ∧
      (Padding 5 4 : Int) = 4 - 5 % 4 ∧ (4 : Int) ∣ 5 + (Padding 5 4 : Int) :=
  ⟨by decide, by decide,
    (padding_calculator 5 4 (by decide) (by decide)).2.1 (by decide)⟩

/-- C8: padding is never omitted.  For every `length ≥ 0` and every modulus `≥ 2` (a Go
`int`), `1 ≤ Padding(length, modulus) ≤ modulus`, and when `length` is a multiple of
`modulus` the result is exactly `modulus`, never 0. -/
theorem padding_never_omitted (length modulus : Int) (hl : 0 ≤ length) (hM : 2 ≤ modulus)
    (hint : modulus < 2 ^ 63) :
    1 ≤ Padding length modulus ∧ (Padding length modulus : Int) ≤ modulus ∧
      (modulus ∣ length →
        (Padding length modulus : Int) = modulus ∧ Padding length modulus ≠ 0) := by
  obtain ⟨hP, h0, h2⟩ := padding_spec length modulus hl hM hint
  refine ⟨by omega, by omega, ?_⟩
  intro hdvd
  have hz : length % modulus = 0 := Int.emod_eq_zero_of_dvd hdvd
  constructor <;> omega

theorem padding_never_omitted_witness :
    (0 : Int) ≤ 8 ∧ (2 : Int) ≤ 4 ∧ (4 : Int) < 2 ^ 63 ∧
      1 ≤ Padding 8 4 ∧ (Padding 8 4 : Int) ≤ 4 ∧
      ((4 : Int) ∣ 8 → (Padding 8 4 : Int) = 4 ∧ Padding 8 4 ≠ 0) :=
  ⟨by decide, by decide, by decide,
    padding_never_omitted 8 4 (by decide) (by decide) (by decide)⟩

/-- C9: strip by decoding, trailing padding.  For every message `m` of length `L` and every
modulus `M ≥ 2` (a Go `int`), with `P = Padding(L, M)`: `P.EncodeTo` on the `P` bytes that
follow the message succeeds, the length of the envelope (the message followed by the bytes
written) is divisible by `M`, `DecodeFromEnd` of the envelope returns value `P` with a nil
error, and dropping the last `P` bytes of the envelope yields exactly `m`. -/
theorem strip_trailing_padding (m pad : List Nat) (M : Int) (hM : 2 ≤ M) (hint : M < 2 ^ 63)
    (hpad : pad.length = Padding m.length M) :
    ∃ block, Varpad.EncodeTo (Padding m.length M) pad = some ⟨block, false⟩ ∧
      M ∣ ((m ++ block).length : Int) ∧
      DecodeFromEnd (m ++ block)
        = (Padding m.length M, vlq.digitCount (Padding m.length M), false) ∧
      (m ++ block).take ((m ++ block).length - Padding m.length M) = m := by
  obtain ⟨hP, h0, h2⟩ := padding_spec m.length M (Int.ofNat_nonneg _) hM hint
  generalize Padding m.length M = P at hP hpad ⊢
  have h1 : 1 ≤ P := by omega
  have h63 : P < 2 ^ 63 := by omega
  have hE := encodeTo_layout P pad h1 h63 (by omega)
  have hdrop : pad.drop P = [] := List.drop_eq_nil_of_le (by omega)
  rw [hdrop, List.append_nil] at hE
  have hbl := block_length P h1
  refine ⟨_, hE, ?_, decodeFromEnd_block P _ m (by omega), ?_⟩
  · rw [List.length_append, hbl]
    refine ⟨(m.length : Int) / M + 1, ?_⟩
    have h := Int.emod_add_ediv (m.length : Int) M
    push_cast
    rw [hP]
    linear_combination -h
  · rw [List.length_append, hbl, Nat.add_sub_cancel, List.take_left' rfl]

theorem strip_trailing_padding_witness :
    (2 : Int) ≤ 4 ∧ (4 : Int) < 2 ^ 63 ∧
      [0, 0, 0].length = Padding [0xaa, 0xbb, 0xcc, 0xdd, 0xee].length 4 ∧
      ∃ block, Varpad.EncodeTo 3 [0, 0, 0] = some ⟨block, false⟩ ∧
        (4 : Int) ∣ (([0xaa, 0xbb, 0xcc, 0xdd, 0xee] ++ block).length : Int) ∧
        DecodeFromEnd ([0xaa, 0xbb, 0xcc, 0xdd, 0xee] ++ block) = (3, 1, false) ∧
        ([0xaa, 0xbb, 0xcc, 0xdd, 0xee] ++ block).take
          (([0xaa, 0xbb, 0xcc, 0xdd, 0xee] ++ block).length - 3)
          = [0xaa, 0xbb, 0xcc, 0xdd, 0xee] :=
  ⟨by decide, by decide, by decide,
    strip_trailing_padding [0xaa, 0xbb, 0xcc, 0xdd, 0xee] [0, 0, 0] 4 (by decide) (by decide)
      (by decide)⟩

/-- C10: surplus capacity is untouched.  For every `v ≥ 1` and every buffer longer than
`v`, `EncodeTo` succeeds, the first `v` bytes equal the block that encoding `v` into a
buffer of exactly `v` bytes produces, and every byte at an index `≥ v` keeps its prior
value.  The length of a Go slice is an `int`. -/
theorem surplus_capacity_untouched (v : Nat) (buffer exact : List Nat) (h1 : 1 ≤ v)
    (hlen : v < buffer.length) (hint : buffer.length < 2 ^ 63) (hexact : exact.length = v) :
    ∃ block out, Varpad.EncodeTo v exact = some ⟨block, false⟩ ∧
      Varpad.EncodeTo v buffer = some ⟨out, false⟩ ∧
      out.length = buffer.length ∧ out.take v = block ∧
      ∀ i, v ≤ i → out[i]? = buffer[i]? := by
  have hE := encodeTo_layout v exact h1 (by omega) (by omega)
  have hdrop : exact.drop v = [] := List.drop_eq_nil_of_le (by omega)
  rw [hdrop, List.append_nil] at hE
  have hbl := block_length v h1
  refine ⟨_, _, hE, encodeTo_layout v buffer h1 (by omega) (by omega), ?_, ?_, ?_⟩
  · rw [List.length_append, hbl, List.length_drop]
    omega
  · exact List.take_left' hbl
  · intro i hi
    rw [List.getElem?_append_right (by omega), hbl, List.getElem?_drop]
    congr 1
    omega

theorem surplus_capacity_untouched_witness :
    1 ≤ 3 ∧ 3 < [1, 2, 3, 4, 5].length ∧ [9, 9, 9].length = 3 ∧
      ∃ block out, Varpad.EncodeTo 3 [9, 9, 9] = some ⟨block, false⟩ ∧
        Varpad.EncodeTo 3 [1, 2, 3, 4, 5] = some ⟨out, false⟩ ∧
        out.length = [1, 2, 3, 4, 5].length ∧ out.take 3 = block ∧
        ∀ i, 3 ≤ i → out[i]? = [1, 2, 3, 4, 5][i]? :=
  ⟨by decide, by decide, rfl,
    surplus_capacity_untouched 3 [1, 2, 3, 4, 5] [9, 9, 9] (by decide) (by decide)
      (by decide) rfl⟩

/-- C11: `FillWithPadding` fills the whole buffer with the block for its own length.  For
every buffer `b` of length `N`, afterwards the buffer equals the block that
`Varpad(N).EncodeTo` produces on an `N`-byte buffer; for `N = 0` nothing changes, for
`1 ≤ N ≤ 127` every byte equals `N`, and `N = 10` gives ten bytes of value 10.  The length
of a Go slice is an `int`. -/
theorem fillWithPadding_block (b : List Nat) (hint : b.length < 2 ^ 63) :
    (∀ exact : List Nat, exact.length = b.length →
      ∃ block, Varpad.EncodeTo b.length exact = some ⟨block, false⟩ ∧
        FillWithPadding b = some block) ∧
    (b.length = 0 → FillWithPadding b = some b) ∧
    (1 ≤ b.length → b.length ≤ 127 →
      FillWithPadding b = some (List.replicate b.length b.length)) ∧
    (b.length = 10 → FillWithPadding b = some (List.replicate 10 10)) := by
  have hmod : b.length % 2 ^ 64 = b.length := Nat.mod_eq_of_lt (by omega)
  have hsmall : 1 ≤ b.length → b.length ≤ 127 →
      FillWithPadding b = some (List.replicate b.length b.length) := by
    intro h1 h127
    obtain ⟨hF, hk⟩ := encodeForward_small b.length h1 h127
    have hE := encodeTo_layout b.length b h1 hint (Nat.le_refl _)
    have hrep : List.replicate b.length b.length
        = [b.length] ++ List.replicate (b.length + 1 - 2 * 1) (b.length % 128) := by
      generalize b.length = n at h1 h127
      obtain ⟨n, rfl⟩ : ∃ m, n = m + 1 := ⟨n - 1, by omega⟩
      rw [List.replicate_succ, Nat.mod_eq_of_lt (by omega)]
      simp
    rw [FillWithPadding, hmod, hE, List.drop_length, vlq.EncodeReversed, hF, hk, hrep]
    simp
  refine ⟨?_, ?_, hsmall, ?_⟩
  · intro exact hexact
    rcases Nat.eq_zero_or_pos b.length with h0 | hpos
    · have hb : b = [] := List.length_eq_zero.mp h0
      have he : exact = [] := List.length_eq_zero.mp (hexact.trans h0)
      subst hb
      subst he
      exact ⟨[], by decide, by decide⟩
    · have hE := encodeTo_layout b.length exact hpos hint (by omega)
      have hE2 := encodeTo_layout b.length b hpos hint (Nat.le_refl _)
      have hdrop : exact.drop b.length = [] := List.drop_eq_nil_of_le (by omega)
      rw [hdrop, List.append_nil] at hE
      rw [List.drop_length, List.append_nil] at hE2
      exact ⟨_, hE, by rw [FillWithPadding, hmod, hE2]; rfl⟩
  · intro h0
    have hb : b = [] := List.length_eq_zero.mp h0
    subst hb
    decide
  · intro h10
    have h := hsmall (by omega) (by omega)
    rw [h10] at h
    exact h

theorem fillWithPadding_block_witness :
    (List.replicate 10 0).length < 2 ^ 63 ∧
      FillWithPadding (List.replicate 10 0) = some (List.replicate 10 10) :=
  ⟨by decide,
    (fillWithPadding_block (List.replicate 10 0) (by decide)).2.2.2 (by decide)⟩

/-- C12: progressive decode.  For every `v ≥ 128` and every split point `j` with
`1 ≤ j < k`, `k` the digit count of `v`: from a zero state, the method
`DecodeFromBeginning` on the first `j` bytes of the block of `v` returns `j` bytes decoded
and `isComplete = false`; a second call on the state it left, with the remaining bytes of
the block, returns `k - j` bytes decoded and `isComplete = true` and leaves the state equal
to `v`, the state a single call on the whole block leaves.  The length of a Go slice is an
`int`. -/
theorem progressive_decode (v j : Nat) (buffer : List Nat) (h128 : 128 ≤ v)
    (hlen : buffer.length = v) (hint : buffer.length < 2 ^ 63) (hj1 : 1 ≤ j)
    (hjk : j < vlq.digitCount v) :
    2 ≤ vlq.digitCount v ∧
    ∃ block, Varpad.EncodeTo v buffer = some ⟨block, false⟩ ∧
      ∃ s, Varpad.DecodeFromBeginning 0 (block.take j) = (s, j, false) ∧
        Varpad.DecodeFromBeginning s (block.drop j) = (v, vlq.digitCount v - j, true) ∧
        Varpad.DecodeFromBeginning 0 block = (v, vlq.digitCount v, true) := by
  have h63 : v < 2 ^ 63 := hlen ▸ hint
  have hE := encodeTo_layout v buffer (by omega) h63 (by omega)
  have hdrop : buffer.drop v = [] := List.drop_eq_nil_of_le (by omega)
  rw [hdrop, List.append_nil, List.append_assoc] at hE
  obtain ⟨s, hs1, hs2⟩ := decodeFrom_split v j
    (List.replicate (v + 1 - 2 * vlq.digitCount v) (v % 128)
      ++ (vlq.EncodeReversed v).drop 1) (by omega) hjk
  have hk2 : 2 ≤ vlq.digitCount v := by
    by_contra hlt
    have hp := vlq.digitCount_pos v
    have hk1 : vlq.digitCount v = 1 := by omega
    have hmin := (vlq.digitCount_minimal v (by omega)).2
    rw [hk1, pow_one] at hmin
    omega
  exact ⟨hk2, _, hE, s, hs1, hs2, vlq.decodeFrom_encodeForward v _ (by omega)⟩

theorem progressive_decode_witness :
    128 ≤ 0x200000 ∧ (List.replicate 0x200000 0).length = 0x200000 ∧ 2 < vlq.digitCount 0x200000 ∧
      ∃ block, Varpad.EncodeTo 0x200000 (List.replicate 0x200000 0) = some ⟨block, false⟩ ∧
        ∃ s, Varpad.DecodeFromBeginning 0 (block.take 2) = (s, 2, false) ∧
          Varpad.DecodeFromBeginning s (block.drop 2)
            = (0x200000, vlq.digitCount 0x200000 - 2, true) ∧
          Varpad.DecodeFromBeginning 0 block = (0x200000, vlq.digitCount 0x200000, true) :=
  ⟨by decide, List.length_replicate _ _, by decide,
    (progressive_decode 0x200000 2 (List.replicate 0x200000 0) (by decide)
      (List.length_replicate _ _) (by rw [List.length_replicate]; norm_num) (by decide)
      (by decide)).2⟩

/-- C13: forward decode of an unterminated run is incomplete, not an error.  For every
buffer `b`, the empty one included, in which every byte has its high bit set,
`DecodeFromBeginning(b)` returns `isComplete = false` and `bytesDecoded = len(b)`. -/
theorem unterminated_forward_incomplete (b : List Nat) (hb : ∀ x ∈ b, x &&& 0x80 ≠ 0) :
    (DecodeFromBeginning b).2.1 = b.length ∧ (DecodeFromBeginning b).2.2 = false ∧
      (DecodeFromBeginning b).2.1 ≤ b.length := by
  have h := decodeFrom_unterminated b 0 hb
  simp only [DecodeFromBeginning, Varpad.DecodeFromBeginning, h, Nat.le_refl, and_self]

theorem unterminated_forward_incomplete_witness :
    (∀ x ∈ [0x81, 0xff, 0x80], x &&& 0x80 ≠ 0) ∧
      (DecodeFromBeginning [0x81, 0xff, 0x80]).2.1 = 3 ∧
      (DecodeFromBeginning [0x81, 0xff, 0x80]).2.2 = false ∧
      (DecodeFromBeginning [0x81, 0xff, 0x80]).2.1 ≤ 3 :=
  ⟨by decide, unterminated_forward_incomplete [0x81, 0xff, 0x80] (by decide)⟩

/-- C14: reverse decode of a truncated run is a hard error.  For every buffer `b` that
contains no byte with the high bit clear, `DecodeFromEnd(b)` returns a non-nil error; and
for every `v ≥ 128` with digit count `k`, `DecodeFromEnd` on the last `j` bytes of the
block of `v`, `j < k`, returns a non-nil error.  The length of a Go slice is an `int`. -/
theorem truncated_reverse_is_error :
    (∀ b : List Nat, (∀ x ∈ b, x &&& 0x80 ≠ 0) → (DecodeFromEnd b).2.2 = true) ∧
    (∀ (v j : Nat) (buffer : List Nat), 128 ≤ v → buffer.length = v →
      buffer.length < 2 ^ 63 → j < vlq.digitCount v →
      ∃ block, Varpad.EncodeTo v buffer = some ⟨block, false⟩ ∧
        (DecodeFromEnd (block.drop (block.length - j))).2.2 = true) := by
  have hfirst : ∀ b : List Nat, (∀ x ∈ b, x &&& 0x80 ≠ 0) → (DecodeFromEnd b).2.2 = true := by
    intro b hb
    have h := decodeFrom_unterminated b.reverse 0 (fun x hx => hb x (List.mem_reverse.mp hx))
    simp only [DecodeFromEnd, Varpad.DecodeFromEnd, vlq.Rvlq.DecodeReversedFrom, h,
      Bool.not_false]
  refine ⟨hfirst, ?_⟩
  intro v j buffer h128 hlen hint hjk
  have h63 : v < 2 ^ 63 := hlen ▸ hint
  have hE := encodeTo_layout v buffer (by omega) h63 (by omega)
  have hdrop : buffer.drop v = [] := List.drop_eq_nil_of_le (by omega)
  rw [hdrop, List.append_nil] at hE
  refine ⟨_, hE, hfirst _ ?_⟩
  have hbl := block_length v (by omega)
  have hb := vlq.digitCount_bound v (by omega)
  have hp := vlq.digitCount_pos v
  have hidx : v - j = vlq.digitCount v + (v + 1 - 2 * vlq.digitCount v)
      + (vlq.digitCount v - 1) - j := by omega
  rw [hbl, hidx]
  exact block_tail_flagged v _ j hjk

theorem truncated_reverse_is_error_witness :
    (DecodeFromEnd [0x80, 0x81]).2.2 = true ∧
      ∃ block, Varpad.EncodeTo 200 (List.replicate 200 0) = some ⟨block, false⟩ ∧
        (DecodeFromEnd (block.drop (block.length - 1))).2.2 = true :=
  ⟨truncated_reverse_is_error.1 [0x80, 0x81] (by decide),
    truncated_reverse_is_error.2 200 1 (List.replicate 200 0) (by decide)
      (List.length_replicate _ _) (by rw [List.length_replicate]; norm_num) (by decide)⟩

/-- C15: a too-small buffer over the whole range of the type.  The claim asks for a
non-nil error for every `v ≥ 1` and every buffer shorter than `v`.  The code does not
deliver it above `2^63 - 1`: for every `v` with `2^63 ≤ v < 2^64` and every buffer (each
one is shorter than `v`), `int(v)` is negative, the guard `len(buffer) < int(this)` does
not fire, and `buffer[:int(this)]` aborts with a slice bound out of range. -/
theorem encodeTo_wrapped_guard_panics (v : Nat) (buffer : List Nat) (h63 : 2 ^ 63 ≤ v)
    (h64 : v < 2 ^ 64) :
    toInt v < 0 ∧ ¬ ((buffer.length : Int) < toInt v) ∧ Varpad.EncodeTo v buffer = none := by
  have hneg : toInt v < 0 := by
    simp only [toInt, wrapInt]
    omega
  have hguard : ¬ ((buffer.length : Int) < toInt v) := by omega
  refine ⟨hneg, hguard, ?_⟩
  unfold Varpad.EncodeTo
  rw [if_neg (by omega), if_neg hguard, if_pos hneg]

theorem encodeTo_wrapped_guard_panics_witness :
    2 ^ 63 ≤ 2 ^ 63 ∧ 2 ^ 63 < 2 ^ 64 ∧ ([] : List Nat).length < 2 ^ 63 ∧
      toInt (2 ^ 63) < 0 ∧ ¬ ((([] : List Nat).length : Int) < toInt (2 ^ 63)) ∧
      Varpad.EncodeTo (2 ^ 63) [] = none :=
  ⟨by decide, by decide, by decide,
    encodeTo_wrapped_guard_panics (2 ^ 63) [] (by decide) (by decide)⟩

/-- C16: the write order does not matter.  For every `v ≥ 1` and every `v`-byte buffer,
the order of the code (write `F` at `[0, k)`, write `R` at `[v-k, v)`, read the filler at
index `k-1`, fill `k..v-k` inclusive) leaves exactly the bytes of the order of the spec
(write `F`, fill `k..v-k` inclusive with `F[k-1]`, then write `R`); and the byte the code
reads at index `k-1` after the tail write is still `F[k-1]`.  The length of a Go slice is
an `int`. -/
theorem write_order_irrelevant (v : Nat) (buffer : List Nat) (h1 : 1 ≤ v)
    (hlen : buffer.length = v) (hint : buffer.length < 2 ^ 63) :
    Varpad.EncodeTo v buffer = some ⟨specEncodeBlock v buffer, false⟩ ∧
    ∃ afterF afterR filler,
      vlq.Rvlq.EncodeTo v buffer = some ((vlq.EncodeForward v).length, afterF) ∧
      vlq.Rvlq.EncodeReversedTo v afterF = some ((vlq.EncodeForward v).length, afterR) ∧
      (vlq.EncodeForward v)[(vlq.EncodeForward v).length - 1]? = some filler ∧
      afterR[(vlq.EncodeForward v).length - 1]? = some filler := by
  have h63 : v < 2 ^ 63 := hlen ▸ hint
  have hE := encodeTo_layout v buffer h1 h63 (by omega)
  have hdrop : buffer.drop v = [] := List.drop_eq_nil_of_le (by omega)
  rw [hdrop, List.append_nil, ← specEncodeBlock_layout v buffer h1 hlen] at hE
  obtain ⟨r1, r2, hs1, hs2, -, hmid, hF⟩ := encode_steps v buffer h1 hlen
  rw [vlq.encodeForward_length]
  exact ⟨hE, r1, r2, v % 128, hs1, hs2, hF, hmid⟩

theorem write_order_irrelevant_witness :
    1 ≤ 200 ∧ (List.replicate 200 7).length = 200 ∧
      Varpad.EncodeTo 200 (List.replicate 200 7)
        = some ⟨specEncodeBlock 200 (List.replicate 200 7), false⟩ :=
  ⟨by decide, List.length_replicate _ _,
    (write_order_irrelevant 200 (List.replicate 200 7) (by decide)
      (List.length_replicate _ _) (by rw [List.length_replicate]; norm_num)).1⟩

/-- C17: `EncodeTo` is total on a large-enough buffer.  For every `v` with
`1 ≤ v ≤ 2^63 - 1` and every buffer of at least `v` bytes, `EncodeTo` returns a nil error
and no index or slice bound is out of range: the digit count `k` of `v` satisfies
`2k - 1 ≤ v`, both VLQ writes succeed on the `v`-byte region, the index `k-1` is valid, and
the bounds of the fill slice satisfy `k ≤ v-k+1 ≤ v`. -/
theorem encodeTo_total (v : Nat) (buffer : List Nat) (h1 : 1 ≤ v) (h63 : v ≤ 2 ^ 63 - 1)
    (hlen : v ≤ buffer.length) :
    (∃ out, Varpad.EncodeTo v buffer = some ⟨out, false⟩) ∧
    2 * vlq.digitCount v - 1 ≤ v ∧
    (∃ afterF afterR,
      vlq.Rvlq.EncodeTo v (buffer.take v) = some (vlq.digitCount v, afterF) ∧
      vlq.Rvlq.EncodeReversedTo v afterF = some (vlq.digitCount v, afterR) ∧
      afterR.length = v ∧ (afterR[vlq.digitCount v - 1]?).isSome = true) ∧
    1 ≤ vlq.digitCount v ∧ vlq.digitCount v - 1 < v ∧
    vlq.digitCount v ≤ v - vlq.digitCount v + 1 ∧ v - vlq.digitCount v + 1 ≤ v := by
  have hb := vlq.digitCount_bound v h1
  have hp := vlq.digitCount_pos v
  obtain ⟨r1, r2, hs1, hs2, hl, hmid, -⟩ :=
    encode_steps v (buffer.take v) h1 (by simp [hlen])
  refine ⟨⟨_, encodeTo_layout v buffer h1 (by omega) hlen⟩, by omega,
    ⟨r1, r2, hs1, hs2, hl, by rw [hmid]; rfl⟩, hp, by omega, by omega, by omega⟩

theorem encodeTo_total_witness :
    1 ≤ 3 ∧ 3 ≤ 2 ^ 63 - 1 ∧ 3 ≤ [1, 2, 3, 4].length ∧
      (∃ out, Varpad.EncodeTo 3 [1, 2, 3, 4] = some ⟨out, false⟩) :=
  ⟨by decide, by decide, by decide,
    (encodeTo_total 3 [1, 2, 3, 4] (by decide) (by decide) (by decide)).1⟩

/-- C18: the padding block is a palindrome.  For every `v ≥ 1`, the `v` bytes that
`EncodeTo` leaves in a `v`-byte buffer read the same forwards and backwards: byte `i`
equals byte `v-1-i` for every `0 ≤ i < v`.  The length of a Go slice is an `int`. -/
theorem block_is_palindrome (v : Nat) (buffer : List Nat) (h1 : 1 ≤ v)
    (hlen : buffer.length = v) (hint : buffer.length < 2 ^ 63) :
    ∃ block, Varpad.EncodeTo v buffer = some ⟨block, false⟩ ∧ block.length = v ∧
      block.reverse = block ∧ ∀ i, i < v → block[i]? = block[v - 1 - i]? := by
  have h63 : v < 2 ^ 63 := hlen ▸ hint
  have hE := encodeTo_layout v buffer h1 h63 (by omega)
  have hdrop : buffer.drop v = [] := List.drop_eq_nil_of_le (by omega)
  rw [hdrop, List.append_nil] at hE
  have hbl := block_length v h1
  have hrev := block_reverse v (v + 1 - 2 * vlq.digitCount v)
  refine ⟨_, hE, hbl, hrev, ?_⟩
  intro i hi
  conv_lhs => rw [← hrev]
  rw [List.getElem?_reverse (by rw [hbl]; exact hi), hbl]

theorem block_is_palindrome_witness :
    1 ≤ 200 ∧ (List.replicate 200 7).length = 200 ∧
      ∃ block, Varpad.EncodeTo 200 (List.replicate 200 7) = some ⟨block, false⟩ ∧
        block.length = 200 ∧ block.reverse = block ∧
        ∀ i, i < 200 → block[i]? = block[200 - 1 - i]? :=
  ⟨by decide, List.length_replicate _ _,
    block_is_palindrome 200 (List.replicate 200 7) (by decide)
      (List.length_replicate _ _) (by rw [List.length_replicate]; norm_num)⟩

end varpad
